import Mathlib

/-!
Verification of the .scb string extraction/replacement tool
(StringTool in main.py).

The binary buffer is modelled as a `List Nat` of byte values
(`read_bytes` always yields values < 256; where that bound matters it
appears as an explicit hypothesis).  Python `str` values are modelled
as lists of Unicode code points (`List Nat`), so string equality is
list equality.  The text codec (Python's cp932 codec, an external
library the tool calls through `.decode`/`.encode`) is a parameter: a
`Codec` structure with a fallible decode and a total encode, plus two
concrete instances used for evaluation:

* `asciiCodec` — bytes below 128 decode to themselves; a faithful
  codec (re-encoding a decoded string gives back the original bytes),
  matching cp932 on the ASCII range.
* `cp932Frag` — a fragment of Python's actual cp932 table including
  the NEC/IBM duplicate pair: both byte pairs ED 40 and FA 5C decode
  to code point 0x7E8A, and 0x7E8A re-encodes to ED 40 (verified
  against CPython's cp932 codec).  This fragment witnesses that
  cp932 decode followed by encode is not the identity.

Fallible operations are embedded with `Option`/`Except`; the Python
`bytearray` item-assignment range check (`ValueError: byte must be in
range(0, 256)`) is modelled by the `Except` error case of the
replacer.  Logger warnings are modelled as an explicit list of
`RepWarning` values returned alongside the buffer.
-/

namespace ScbTool

/-- The text codec interface used by StringTool (`bytes.decode` /
`str.encode` with a fixed encoding): decoding bytes may fail
(UnicodeDecodeError becomes `none`), encoding is total. -/
structure Codec where
  decode : List Nat → Option (List Nat)
  encode : List Nat → List Nat

/-- Codec for the ASCII fragment of cp932: bytes below 128 decode to
themselves, code points encode to themselves. -/
def asciiCodec : Codec where
  decode bs := if bs.all (fun b => b < 128) then some bs else none
  encode cs := cs

/-- Decode of `cp932Frag`: ASCII bytes decode to themselves; the
double-byte sequences ED 40 and FA 5C both decode to code point
0x7E8A, exactly as in CPython's cp932 codec (NEC/IBM duplicate
ranges); everything else fails. -/
def cp932FragDecode : List Nat → Option (List Nat)
  | [] => some []
  | b :: rest =>
    if b < 128 then
      (cp932FragDecode rest).map (fun cs => b :: cs)
    else
      match rest with
      | [] => none
      | b2 :: rest2 =>
        if (b = 0xED && b2 = 0x40) || (b = 0xFA && b2 = 0x5C) then
          (cp932FragDecode rest2).map (fun cs => 0x7E8A :: cs)
        else none

/-- Encode of `cp932Frag`: ASCII code points encode to themselves and
0x7E8A encodes to ED 40 (the choice CPython's cp932 codec makes for
this doubly-decodable character); other code points are outside the
modelled fragment. -/
def cp932FragEncode : List Nat → List Nat
  | [] => []
  | cp :: rest =>
    if cp < 128 then cp :: cp932FragEncode rest
    else if cp = 0x7E8A then 0xED :: 0x40 :: cp932FragEncode rest
    else cp932FragEncode rest

/-- A fragment of Python's cp932 codec (see module comment). -/
def cp932Frag : Codec where
  decode := cp932FragDecode
  encode := cp932FragEncode

/-- Python list/bytes slicing `data[a:b]` (for `a ≤ b`; clamps at the
end of the list like Python). -/
def slice (data : List Nat) (a b : Nat) : List Nat :=
  (data.drop a).take (b - a)

/-- The scan of `_find_string_pattern`'s while loop
(`while str_end < len(data) and data[str_end] != 0: str_end += 1`),
expressed on the suffix of the buffer from `str_start`: the number of
bytes stepped over before the first zero (all of them if there is no
zero). -/
def findZeroOff : List Nat → Nat
  | [] => 0
  | b :: rest => if b = 0 then 0 else findZeroOff rest + 1

/-- Index at which the Python terminator scan starting at `i` stops:
the first zero byte of `data` at or after `i`, or `data.length` if
there is none. -/
def findZero (data : List Nat) (i : Nat) : Nat :=
  i + findZeroOff (data.drop i)

/-- StringTool._find_string_pattern.  On success the result carries
(specified_length, string_start, string_end); every failure return
`(False, 0, 0, 0)` of the Python code is `none`. -/
def findStringPattern (data : List Nat) (offset : Nat) : Option (Nat × Nat × Nat) :=
  if data.length ≤ offset + 5 then none
  else if data.getD offset 0 = 0x04 ∧ slice data (offset + 2) (offset + 5) = [0, 0, 0] then
    if (findZero data (offset + 5) - (offset + 5)) + 1 = data.getD (offset + 1) 0 then
      some (data.getD (offset + 1) 0, offset + 5, findZero data (offset + 5))
    else none
  else none

/-- One extracted record, `{'orig': ..., 'trans': ...}`. -/
structure StrRec where
  orig : List Nat
  trans : List Nat
deriving DecidableEq

/-- An extraction result record together with the frame boundaries
(`str_start`, `str_end`) of the iteration that produced it; the
boundaries are carried only so the ordering invariant can be stated,
`extract_strings` itself returns just the records. -/
structure ExEntry where
  strStart : Nat
  strEnd : Nat
  item : StrRec
deriving DecidableEq

/-- StringTool.extract_strings' scanning loop, instrumented with the
frame boundaries (see `ExEntry`).  Mirrors the Python loop: cursor
`offset`; on a valid pattern whose payload decodes, record the string
and jump to `str_end + 1`; otherwise (no pattern, or
UnicodeDecodeError) advance by one byte. -/
def extractEntries (c : Codec) (data : List Nat) (offset : Nat) : List ExEntry :=
  if _h : offset < data.length then
    match hf : findStringPattern data offset with
    | some (_len, s, e) =>
      match c.decode (slice data s e) with
      | some str => ⟨s, e, ⟨str, str⟩⟩ :: extractEntries c data (e + 1)
      | none => extractEntries c data (offset + 1)
    | none => extractEntries c data (offset + 1)
  else []
termination_by data.length - offset
decreasing_by
  · have hse : offset + 5 ≤ e := by
      unfold findStringPattern at hf
      split at hf
      · exact absurd hf (by simp)
      · split at hf
        · split at hf
          · simp only [Option.some.injEq, Prod.mk.injEq] at hf
            unfold findZero at hf
            omega
          · exact absurd hf (by simp)
        · exact absurd hf (by simp)
    omega
  · omega
  · omega

/-- StringTool.extract_strings: the ordered record list
`[{'orig': s, 'trans': s}, ...]` produced by one scan of the buffer. -/
def extractStrings (c : Codec) (data : List Nat) : List StrRec :=
  (extractEntries c data 0).map ExEntry.item

/-- The warnings replace_strings can log. -/
inductive RepWarning where
  | decodeFail (offset : Nat)
  | lengthExceeds (newLen oldLen offset : Nat)
  | notAllApplied (remaining : Nat)
deriving DecidableEq

/-- The runtime error of a Python bytearray item assignment with a
value outside range(0, 256). -/
inductive ByteErr where
  | byteOutOfRange (v : Nat)
deriving DecidableEq

instance {e a : Type} [DecidableEq e] [DecidableEq a] : DecidableEq (Except e a) := fun x y => by
  cases x <;> cases y
  case error.error u v =>
    exact if h : u = v then isTrue (by rw [h]) else isFalse (by intro hh; injection hh; contradiction)
  case ok.ok u v =>
    exact if h : u = v then isTrue (by rw [h]) else isFalse (by intro hh; injection hh; contradiction)
  case error.ok u v => exact isFalse (fun hh => Except.noConfusion hh)
  case ok.error u v => exact isFalse (fun hh => Except.noConfusion hh)

/-- The two buffer mutations of one successful replacement:
`data[offset + 1] = new_len` followed by the Python bytearray slice
assignment `data[str_start:str_end] = new_bytes` (which splices, so
the buffer is resized when the lengths differ). -/
def rewriteFrame (data : List Nat) (offset s e : Nat) (newBytes : List Nat) : List Nat :=
  let d := data.set (offset + 1) (newBytes.length + 1)
  d.take s ++ newBytes ++ d.drop e

/-- StringTool.replace_strings' main loop.  State is the mutable
buffer `data`, the cursor `offset` and the next translation slot
`tIdx`.  Returns the final buffer and the logged warnings, or the
ValueError raised by `data[offset + 1] = new_len` when
`new_len > 255`.  (The error value carries no warning list, so the
length-exceeds warning Python logs just before a failing store is not
recorded; no property here inspects warnings on the error path.) -/
def replaceLoop (c : Codec) (ts : List StrRec) (data : List Nat) (offset tIdx : Nat) :
    Except ByteErr (List Nat × List RepWarning) :=
  if h : offset < data.length ∧ tIdx < ts.length then
    match findStringPattern data offset with
    | none => replaceLoop c ts data (offset + 1) tIdx
    | some (oldLen, s, e) =>
      match c.decode (slice data s e) with
      | none =>
        Except.map (fun r => (r.1, RepWarning.decodeFail s :: r.2))
          (replaceLoop c ts data (offset + 1) tIdx)
      | some oldStr =>
        if (ts.get ⟨tIdx, h.2⟩).orig = oldStr then
          if (c.encode (ts.get ⟨tIdx, h.2⟩).trans).length + 1 < 256 then
            Except.map (fun r => (r.1,
                (if oldLen < (c.encode (ts.get ⟨tIdx, h.2⟩).trans).length + 1 then
                  [RepWarning.lengthExceeds ((c.encode (ts.get ⟨tIdx, h.2⟩).trans).length + 1) oldLen offset]
                 else []) ++ r.2))
              (replaceLoop c ts
                (rewriteFrame data offset s e (c.encode (ts.get ⟨tIdx, h.2⟩).trans))
                (s + ((c.encode (ts.get ⟨tIdx, h.2⟩).trans).length + 1)) (tIdx + 1))
          else Except.error (ByteErr.byteOutOfRange ((c.encode (ts.get ⟨tIdx, h.2⟩).trans).length + 1))
        else replaceLoop c ts data (offset + 1) tIdx
  else
    Except.ok (data, if tIdx < ts.length then [RepWarning.notAllApplied (ts.length - tIdx)] else [])
termination_by (ts.length - tIdx, data.length - offset)

/-- StringTool.replace_strings (the pure core: reading the input
buffer and the final `write_bytes` are outside the model). -/
def replaceStrings (c : Codec) (data : List Nat) (translations : List StrRec) :
    Except ByteErr (List Nat × List RepWarning) :=
  replaceLoop c translations data 0 0

/-- Index of the first zero byte of a list, if any (used only by the
spec-side recognizers below). -/
def firstZeroIdx : List Nat → Option Nat
  | [] => none
  | b :: rest => if b = 0 then some 0 else (firstZeroIdx rest).map (fun k => k + 1)

/-- The recognition algorithm exactly as the specification states it
(spec section 4.2), written for comparison with the implementation:
step 1 fails when fewer than 5 bytes remain from the offset; step 4
fails when no zero byte is found before the buffer end; step 5 fails
when `(terminator_index - payload_start) + 1` differs from the length
byte. -/
def findFrameSpec (data : List Nat) (offset : Nat) : Option (Nat × Nat × Nat) :=
  if data.length < offset + 5 then none
  else if data.getD offset 0 = 0x04 ∧ slice data (offset + 2) (offset + 5) = [0, 0, 0] then
    match firstZeroIdx (data.drop (offset + 5)) with
    | none => none
    | some k =>
      if ((offset + 5 + k) - (offset + 5)) + 1 = data.getD (offset + 1) 0 then
        some (data.getD (offset + 1) 0, offset + 5, offset + 5 + k)
      else none
  else none

/-- The recognition algorithm as amended to match the code: the
remaining-bytes guard requires at least 6 bytes (`offset + 5` must be
a valid index), and when no zero byte exists the buffer end plays the
role of the terminator index instead of failing. -/
def findFrameSpecAmended (data : List Nat) (offset : Nat) : Option (Nat × Nat × Nat) :=
  if data.length ≤ offset + 5 then none
  else if data.getD offset 0 = 0x04 ∧ slice data (offset + 2) (offset + 5) = [0, 0, 0] then
    match firstZeroIdx (data.drop (offset + 5)) with
    | none =>
      if (data.length - (offset + 5)) + 1 = data.getD (offset + 1) 0 then
        some (data.getD (offset + 1) 0, offset + 5, data.length)
      else none
    | some k =>
      if ((offset + 5 + k) - (offset + 5)) + 1 = data.getD (offset + 1) 0 then
        some (data.getD (offset + 1) 0, offset + 5, offset + 5 + k)
      else none
  else none

/-! Section: Basic facts about the scanner -/

theorem findZeroOff_le_length (l : List Nat) : findZeroOff l ≤ l.length := by
  induction l with
  | nil => simp [findZeroOff]
  | cons b rest ih =>
    simp only [findZeroOff, List.length_cons]
    split
    · omega
    · omega

theorem findZero_ge (data : List Nat) (i : Nat) : i ≤ findZero data i := by
  unfold findZero; omega

theorem findZero_le (data : List Nat) (i : Nat) (h : i ≤ data.length) :
    findZero data i ≤ data.length := by
  have := findZeroOff_le_length (data.drop i)
  unfold findZero
  rw [List.length_drop] at this
  omega

/-- Elimination form of a successful `_find_string_pattern` call. -/
theorem findStringPattern_some {data : List Nat} {offset L s e : Nat}
    (h : findStringPattern data offset = some (L, s, e)) :
    offset + 5 < data.length ∧ data.getD offset 0 = 0x04 ∧
    slice data (offset + 2) (offset + 5) = [0, 0, 0] ∧
    L = data.getD (offset + 1) 0 ∧ s = offset + 5 ∧ e = findZero data (offset + 5) ∧
    (e - s) + 1 = L := by
  unfold findStringPattern at h
  split at h
  · exact absurd h (by simp)
  · split at h
    · split at h
      · simp only [Option.some.injEq, Prod.mk.injEq] at h
        obtain ⟨h1, h2, h3⟩ := h
        subst h1; subst h2; subst h3
        refine ⟨by omega, ?_, ?_, rfl, rfl, rfl, by omega⟩ <;> tauto
      · exact absurd h (by simp)
    · exact absurd h (by simp)

theorem list_set_self : ∀ (l : List Nat) (i : Nat), i < l.length → l.set i (l.getD i 0) = l
  | _ :: _, 0, _ => rfl
  | a :: t, n + 1, h => by
    have := list_set_self t n (by simpa using h)
    simp only [List.set, List.getD, List.getElem?_cons_succ]
    simpa [List.getD] using this

theorem slice_reassemble (data : List Nat) (s e : Nat) (hse : s ≤ e) :
    data.take s ++ slice data s e ++ data.drop e = data := by
  have h1 : slice data s e ++ data.drop e = data.drop s := by
    unfold slice
    have h2 : (data.drop s).drop (e - s) = data.drop e := by
      rw [List.drop_drop]
      congr 1
      omega
    rw [← h2]
    exact List.take_append_drop _ _
  rw [List.append_assoc, h1, List.take_append_drop]

theorem slice_length (data : List Nat) (s e : Nat) (hse : s ≤ e) (he : e ≤ data.length) :
    (slice data s e).length = e - s := by
  unfold slice
  rw [List.length_take, List.length_drop]
  omega

theorem getD_mem (l : List Nat) (i : Nat) (h : i < l.length) : l.getD i 0 ∈ l := by
  rw [List.getD_eq_getElem l 0 h]
  exact List.getElem_mem h

/-! Section: Relating the implementation's terminator scan to the
spec-side `firstZeroIdx` -/

theorem findZeroOff_of_firstZeroIdx_some {l : List Nat} {k : Nat}
    (h : firstZeroIdx l = some k) : findZeroOff l = k := by
  induction l generalizing k with
  | nil => simp [firstZeroIdx] at h
  | cons b rest ih =>
    unfold firstZeroIdx at h
    unfold findZeroOff
    split at h
    · simp only [Option.some.injEq] at h
      simp_all
    · rcases h2 : firstZeroIdx rest with _ | k2
      · rw [h2] at h; simp at h
      · rw [h2] at h
        simp only [Option.map] at h
        injection h with h
        rw [if_neg (by assumption), ih h2]
        omega

theorem findZeroOff_of_firstZeroIdx_none {l : List Nat}
    (h : firstZeroIdx l = none) : findZeroOff l = l.length := by
  induction l with
  | nil => simp [findZeroOff]
  | cons b rest ih =>
    unfold firstZeroIdx at h
    unfold findZeroOff
    split at h
    · simp at h
    · rcases h2 : firstZeroIdx rest with _ | k2
      · rw [if_neg (by assumption), ih h2, List.length_cons]
      · rw [h2] at h; simp at h

/-! Section: Claim C4 -/

/-- Claim C4, counterexample: the sequence 04 03 00 00 00 41 42 has no
zero byte after the payload start, so the specification's recognition
algorithm (step 4) fails, but `_find_string_pattern` computes
`actual_length = (7 - 5) + 1 = 3 = specified_length` with the scan
having fallen off the buffer end, and succeeds.  Hence recognition
does not succeed exactly when the spec's algorithm does. -/
theorem c4_find_pattern_spec_divergence :
    findStringPattern [4, 3, 0, 0, 0, 65, 66] 0 = some (3, 5, 7) ∧
    findFrameSpec [4, 3, 0, 0, 0, 65, 66] 0 = none := by
  constructor <;> decide

/-- Claim C4 (amended): `_find_string_pattern` agrees everywhere with
the spec's algorithm amended in two points forced by the
counterexample: the guard requires `offset + 5` to be a valid index
(at least 6 remaining bytes — with exactly 5 the zero-byte scan range
is empty, so both versions fail anyway), and when no zero byte exists
the buffer end serves as the terminator index rather than failing.
In particular the sequence 04 05 00 00 00 41 42 43 00 (declared
length 5, actual 4) is never matched at any offset. -/
theorem c4_find_pattern_amended :
    (∀ (data : List Nat) (offset : Nat),
      findStringPattern data offset = findFrameSpecAmended data offset) ∧
    (∀ offset : Nat,
      findStringPattern [0x04, 0x05, 0, 0, 0, 0x41, 0x42, 0x43, 0] offset = none) := by
  constructor
  · intro data offset
    unfold findStringPattern findFrameSpecAmended
    split
    · rfl
    · split
      · rcases h2 : firstZeroIdx (data.drop (offset + 5)) with _ | k
        · have hz := findZeroOff_of_firstZeroIdx_none h2
          rw [List.length_drop] at hz
          unfold findZero
          rw [hz]
          have : offset + 5 + (data.length - (offset + 5)) = data.length := by omega
          rw [this]
        · have hz := findZeroOff_of_firstZeroIdx_some h2
          unfold findZero
          rw [hz]
      · rfl
  · intro offset
    match offset with
    | 0 => decide
    | 1 => decide
    | 2 => decide
    | 3 => decide
    | 4 => decide
    | 5 => decide
    | 6 => decide
    | 7 => decide
    | 8 => decide
    | n + 9 =>
      unfold findStringPattern
      rw [if_pos (by simp)]

/-! Section: Claim C7: extraction order and record seeding -/

theorem extractEntries_bounds (c : Codec) (data : List Nat) :
    ∀ (n offset : Nat), data.length - offset ≤ n →
      ∀ x ∈ extractEntries c data offset,
        offset + 5 ≤ x.strStart ∧ x.strStart ≤ x.strEnd ∧ x.item.trans = x.item.orig := by
  intro n
  induction n with
  | zero =>
    intro offset hn x hx
    rw [extractEntries, dif_neg (by omega)] at hx
    simp at hx
  | succ n ih =>
    intro offset hn x hx
    by_cases hoff : offset < data.length
    · rw [extractEntries, dif_pos hoff] at hx
      split at hx
      case _ _len s e hf =>
        obtain ⟨hlen, -, -, -, hs, he, -⟩ := findStringPattern_some hf
        have hge : s ≤ e := by
          subst hs; subst he; exact findZero_ge data (offset + 5)
        split at hx
        · rcases List.mem_cons.mp hx with h1 | h1
          · subst h1
            refine ⟨?_, ?_, rfl⟩
            · show offset + 5 ≤ s
              omega
            · show s ≤ e
              omega
          · have := ih (e + 1) (by omega) x h1
            refine ⟨by omega, this.2.1, this.2.2⟩
        · have := ih (offset + 1) (by omega) x hx
          exact ⟨by omega, this.2.1, this.2.2⟩
      case _ hf =>
        have := ih (offset + 1) (by omega) x hx
        exact ⟨by omega, this.2.1, this.2.2⟩
    · rw [extractEntries, dif_neg hoff] at hx
      simp at hx

theorem extractEntries_chain (c : Codec) (data : List Nat) :
    ∀ (n offset : Nat), data.length - offset ≤ n →
      List.Chain' (fun a b => a.strEnd + 5 < b.strStart) (extractEntries c data offset) := by
  intro n
  induction n with
  | zero =>
    intro offset hn
    rw [extractEntries, dif_neg (by omega)]
    exact List.chain'_nil
  | succ n ih =>
    intro offset hn
    by_cases hoff : offset < data.length
    · rw [extractEntries, dif_pos hoff]
      split
      case _ _len s e hf =>
        obtain ⟨hlen, -, -, -, hs, he, -⟩ := findStringPattern_some hf
        have hge : s ≤ e := by
          subst hs; subst he; exact findZero_ge data (offset + 5)
        split
        · rw [List.chain'_cons']
          constructor
          · intro b hb
            have hmem := List.mem_of_mem_head? hb
            have := extractEntries_bounds c data (data.length) (e + 1) (by omega) b hmem
            simp only []
            omega
          · exact ih (e + 1) (by omega)
        · exact ih (offset + 1) (by omega)
      case _ hf =>
        exact ih (offset + 1) (by omega)
    · rw [extractEntries, dif_neg hoff]
      exact List.chain'_nil

/-- Claim C7: extract_strings visits frames in strictly increasing
offset order — consecutive extracted entries satisfy
`a.strEnd + 5 < b.strStart`, i.e. the later frame's marker offset
(`strStart - 5`) lies strictly after the earlier frame's terminator
index `strEnd` — and every record is seeded with its translation equal
to its original. -/
theorem c7_extract_order_and_seed (c : Codec) (data : List Nat) :
    List.Chain' (fun a b => a.strEnd + 5 < b.strStart) (extractEntries c data 0) ∧
    ∀ r ∈ extractStrings c data, r.trans = r.orig := by
  constructor
  · exact extractEntries_chain c data data.length 0 (by omega)
  · intro r hr
    unfold extractStrings at hr
    rcases List.mem_map.mp hr with ⟨x, hx, hxr⟩
    have := extractEntries_bounds c data data.length 0 (by omega) x hx
    rw [← hxr]
    exact this.2.2

unseal extractEntries in
theorem c7_witness :
    List.Chain' (fun a b => a.strEnd + 5 < b.strStart)
      (extractEntries asciiCodec ([4, 2, 0, 0, 0, 65, 0] ++ [4, 2, 0, 0, 0, 66, 0]) 0) ∧
    (⟨[65], [65]⟩ : StrRec).trans = (⟨[65], [65]⟩ : StrRec).orig :=
  ⟨(c7_extract_order_and_seed asciiCodec ([4, 2, 0, 0, 0, 65, 0] ++ [4, 2, 0, 0, 0, 66, 0])).1,
   (c7_extract_order_and_seed asciiCodec ([4, 2, 0, 0, 0, 65, 0] ++ [4, 2, 0, 0, 0, 66, 0])).2
     ⟨[65], [65]⟩ (by decide)⟩

/-! Section: Claim C1: round trip -/

theorem drop_cons_head {a : Type} (ts : List a) (i : Nat) (x : a) (l : List a)
    (hd : ts.drop i = x :: l) (hi : i < ts.length) :
    ts.get ⟨i, hi⟩ = x ∧ ts.drop (i + 1) = l := by
  have h2 := List.drop_eq_getElem_cons hi
  rw [hd] at h2
  injection h2 with h3 h4
  constructor
  · rw [List.get_eq_getElem]
    exact h3.symm
  · exact h4.symm

/-- Invariant of the round trip: if the translations yet to be
consumed are exactly the records the extractor produces from the
current cursor on, the replace loop rewrites every frame with its own
bytes and returns the buffer unchanged. -/
theorem replaceLoop_roundtrip (c : Codec)
    (hc : ∀ b cs, c.decode b = some cs → c.encode cs = b)
    (data : List Nat) (hb : ∀ b ∈ data, b < 256) (ts : List StrRec) :
    ∀ (n off tIdx : Nat), data.length - off ≤ n →
      ts.drop tIdx = (extractEntries c data off).map ExEntry.item →
      ∃ ws, replaceLoop c ts data off tIdx = Except.ok (data, ws) := by
  intro n
  induction n with
  | zero =>
    intro off tIdx hn hinv
    rw [replaceLoop, dif_neg (fun hcon => by omega)]
    exact ⟨_, rfl⟩
  | succ n ih =>
    intro off tIdx hn hinv
    by_cases hoff : off < data.length
    case neg =>
      rw [replaceLoop, dif_neg (fun hcon => hoff hcon.1)]
      exact ⟨_, rfl⟩
    case pos =>
    by_cases hidx : tIdx < ts.length
    case neg =>
      rw [replaceLoop, dif_neg (fun hcon => hidx hcon.2)]
      exact ⟨_, rfl⟩
    case pos =>
    rw [extractEntries, dif_pos hoff] at hinv
    rw [replaceLoop, dif_pos ⟨hoff, hidx⟩]
    split
    case _ hfg =>
      -- scanner found nothing at the cursor: both loops advance by one
      split at hinv
      case _ _len s e hfh => rw [hfg] at hfh; exact absurd hfh (by simp)
      case _ hfh => exact ih (off + 1) tIdx (by omega) hinv
    case _ L s e hfg =>
      obtain ⟨hlen5, -, -, hL, hs, he, hact⟩ := findStringPattern_some hfg
      have hge : s ≤ e := by
        subst hs; subst he; exact findZero_ge data (off + 5)
      have hle : e ≤ data.length := by
        subst hs; subst he; exact findZero_le data (off + 5) (by omega)
      split at hinv
      case _ _len s' e' hfh =>
        rw [hfg] at hfh
        injection hfh with hfh
        injection hfh with h1 hfh
        injection hfh with h2 h3
        subst h1; subst h2; subst h3
        split
        case _ hdg =>
          -- payload fails to decode: frame skipped in both loops
          split at hinv
          case _ str hdh => rw [hdg] at hdh; exact absurd hdh (by simp)
          case _ hdh =>
            obtain ⟨ws, hws⟩ := ih (off + 1) tIdx (by omega) hinv
            exact ⟨RepWarning.decodeFail s :: ws, by rw [hws]; rfl⟩
        case _ oldStr hdg =>
          split at hinv
          case _ str hdh =>
            rw [hdg] at hdh
            injection hdh with hdh
            subst hdh
            simp only [List.map_cons] at hinv
            obtain ⟨hget, hdrop1⟩ := drop_cons_head ts tIdx _ _ hinv hidx
            split
            case _ hcond =>
              have henc : c.encode oldStr = slice data s e := hc _ _ hdg
              have htrans : (ts.get ⟨tIdx, hidx⟩).trans = oldStr := by rw [hget]
              have hlenb : (c.encode (ts.get ⟨tIdx, hidx⟩).trans).length + 1 =
                  data.getD (off + 1) 0 := by
                rw [htrans, henc, slice_length data s e hge hle]
                omega
              have h256 : (c.encode (ts.get ⟨tIdx, hidx⟩).trans).length + 1 < 256 := by
                rw [hlenb]
                exact hb _ (getD_mem data (off + 1) (by omega))
              split
              case _ h256g =>
                have hdata2 : rewriteFrame data off s e
                    (c.encode (ts.get ⟨tIdx, hidx⟩).trans) = data := by
                  rw [htrans, henc]
                  unfold rewriteFrame
                  have hset : data.set (off + 1) ((slice data s e).length + 1) = data := by
                    rw [slice_length data s e hge hle]
                    have hv : (e - s) + 1 = data.getD (off + 1) 0 := by omega
                    rw [hv]
                    exact list_set_self data (off + 1) (by omega)
                  simp only [hset]
                  exact slice_reassemble data s e hge
                have hoffeq : s + ((c.encode (ts.get ⟨tIdx, hidx⟩).trans).length + 1) =
                    e + 1 := by
                  rw [htrans, henc, slice_length data s e hge hle]
                  omega
                obtain ⟨ws, hws⟩ := ih (e + 1) (tIdx + 1) (by omega) hdrop1
                rw [hdata2, hoffeq, hws]
                exact ⟨_, rfl⟩
              case _ h256g => exact absurd h256 h256g
            case _ hcond =>
              exact absurd (by rw [hget] : (ts.get ⟨tIdx, hidx⟩).orig = oldStr) hcond
          case _ hdh => rw [hdg] at hdh; exact absurd hdh (by simp)
      case _ hfh => rw [hfg] at hfh; exact absurd hfh (by simp)

unseal extractEntries replaceLoop in
/-- Claim C1, counterexample: the code's own codec (cp932) is not
injective on decode — the NEC/IBM duplicate byte pair FA 5C decodes
to the same character as ED 40, and re-encoding yields ED 40.  A
buffer whose only frame has payload FA 5C therefore comes back from
the extract/replace round trip with payload ED 40: not byte-for-byte
equal to the input, refuting the claim for arbitrary buffers. -/
theorem c1_roundtrip_counterexample :
    replaceStrings cp932Frag [0x04, 3, 0, 0, 0, 0xFA, 0x5C, 0]
        (extractStrings cp932Frag [0x04, 3, 0, 0, 0, 0xFA, 0x5C, 0]) =
      Except.ok ([0x04, 3, 0, 0, 0, 0xED, 0x40, 0], []) ∧
    ([0x04, 3, 0, 0, 0, 0xED, 0x40, 0] : List Nat) ≠ [0x04, 3, 0, 0, 0, 0xFA, 0x5C, 0] := by
  constructor <;> decide

theorem asciiCodec_faithful :
    ∀ b cs, asciiCodec.decode b = some cs → asciiCodec.encode cs = b := by
  intro b cs h
  unfold asciiCodec at h ⊢
  simp only [] at h ⊢
  split at h
  · injection h with h
    exact h.symm
  · exact absurd h (by simp)

/-- Claim C1 (amended): the extract-then-replace round trip
reproduces the buffer byte-for-byte for every byte buffer (entries
below 256, as produced by `read_bytes`) provided the codec re-encodes
every decoded byte string to the original bytes.  Python's cp932
satisfies this for all frames outside the NEC/IBM duplicate ranges;
the counterexample shows the proviso is necessary. -/
theorem c1_roundtrip (c : Codec) (data : List Nat)
    (hc : ∀ b cs, c.decode b = some cs → c.encode cs = b)
    (hb : ∀ b ∈ data, b < 256) :
    ∃ ws, replaceStrings c data (extractStrings c data) = Except.ok (data, ws) := by
  unfold replaceStrings
  exact replaceLoop_roundtrip c hc data hb (extractStrings c data) data.length 0 0
    (by omega) (by unfold extractStrings; rfl)

theorem c1_roundtrip_witness :
    ∃ ws, replaceStrings asciiCodec [4, 2, 0, 0, 0, 65, 0]
        (extractStrings asciiCodec [4, 2, 0, 0, 0, 65, 0]) =
      Except.ok ([4, 2, 0, 0, 0, 65, 0], ws) :=
  c1_roundtrip asciiCodec [4, 2, 0, 0, 0, 65, 0] asciiCodec_faithful (by decide)

/-! Section: Claim C3: length byte overflow -/

/-- Claim C3: when a matching frame is to be rewritten and the
encoded replacement plus terminator exceeds 255, the one-byte length
field cannot hold `new_len`: the byte-store's range check (the
`ValueError` raised by the bytearray item assignment
`data[offset + 1] = new_len`, modelled by `ByteErr.byteOutOfRange`)
aborts replace_strings with an error instead of truncating the length
byte; no buffer is produced. -/
theorem c3_length_overflow_error (c : Codec) (ts : List StrRec) (data : List Nat)
    (off tIdx : Nat) (hoff : off < data.length) (hidx : tIdx < ts.length)
    (L s e : Nat) (hf : findStringPattern data off = some (L, s, e))
    (oldStr : List Nat) (hd : c.decode (slice data s e) = some oldStr)
    (ho : (ts.get ⟨tIdx, hidx⟩).orig = oldStr)
    (hlen : ¬ (c.encode (ts.get ⟨tIdx, hidx⟩).trans).length + 1 < 256) :
    replaceLoop c ts data off tIdx =
      Except.error (ByteErr.byteOutOfRange
        ((c.encode (ts.get ⟨tIdx, hidx⟩).trans).length + 1)) := by
  rw [replaceLoop, dif_pos ⟨hoff, hidx⟩]
  split
  case _ hfg => rw [hf] at hfg; exact absurd hfg (by simp)
  case _ L' s' e' hfg =>
    rw [hf] at hfg
    injection hfg with hfg
    injection hfg with h1 hfg
    injection hfg with h2 h3
    subst h1; subst h2; subst h3
    split
    case _ hdg => rw [hd] at hdg; exact absurd hdg (by simp)
    case _ str hdg =>
      rw [hd] at hdg
      injection hdg with hdg
      subst hdg
      rw [if_pos ho, if_neg hlen]

set_option maxRecDepth 4000 in
theorem c3_witness :
    replaceLoop asciiCodec [⟨[65], List.replicate 255 66⟩] [4, 2, 0, 0, 0, 65, 0] 0 0 =
      Except.error (ByteErr.byteOutOfRange
        ((asciiCodec.encode (([⟨[65], List.replicate 255 66⟩] :
          List StrRec).get ⟨0, by decide⟩).trans).length + 1)) :=
  c3_length_overflow_error asciiCodec [⟨[65], List.replicate 255 66⟩]
    [4, 2, 0, 0, 0, 65, 0] 0 0 (by decide) (by decide) 2 5 6 (by decide)
    [65] (by decide) (by decide) (by decide)

/-! Section: Claim C8: frames whose payload does not decode are skipped -/

/-- Claim C8: in replace_strings, a recognized frame whose payload
fails to decode is skipped entirely: the loop continues on the same
buffer with the same translation slot, with the cursor advanced by
exactly one byte; only the decode-failure warning is added to the
log. -/
theorem c8_decode_failure_skips (c : Codec) (ts : List StrRec) (data : List Nat)
    (off tIdx : Nat) (hoff : off < data.length) (hidx : tIdx < ts.length)
    (L s e : Nat) (hf : findStringPattern data off = some (L, s, e))
    (hd : c.decode (slice data s e) = none) :
    replaceLoop c ts data off tIdx =
      Except.map (fun r => (r.1, RepWarning.decodeFail s :: r.2))
        (replaceLoop c ts data (off + 1) tIdx) := by
  rw [replaceLoop, dif_pos ⟨hoff, hidx⟩]
  split
  case _ hfg => rw [hf] at hfg; exact absurd hfg (by simp)
  case _ L' s' e' hfg =>
    rw [hf] at hfg
    injection hfg with hfg
    injection hfg with h1 hfg
    injection hfg with h2 h3
    subst h1; subst h2; subst h3
    split
    case _ hdg => rfl
    case _ str hdg => rw [hd] at hdg; exact absurd hdg (by simp)

theorem c8_witness :
    replaceLoop asciiCodec [⟨[65], [65]⟩] [4, 2, 0, 0, 0, 200, 0] 0 0 =
      Except.map (fun r => (r.1, RepWarning.decodeFail 5 :: r.2))
        (replaceLoop asciiCodec [⟨[65], [65]⟩] [4, 2, 0, 0, 0, 200, 0] 1 0) :=
  c8_decode_failure_skips asciiCodec [⟨[65], [65]⟩] [4, 2, 0, 0, 0, 200, 0] 0 0
    (by decide) (by decide) 2 5 6 (by decide) (by decide)

/-! Section: Claim C9: effect of one frame rewrite on the buffer -/

/-- Claim C9: one successful frame rewrite (length-byte store plus
payload splice) leaves every byte before the frame's marker unchanged
in place, keeps the terminator and every byte after it unchanged in
value and relative order (shifted to follow the new payload), and
changes the buffer's total length by exactly the encoded translation
length minus the original payload length (stated additively:
`result.length + (e - s) = data.length + newBytes.length`). -/
theorem c9_rewrite_preserves (data : List Nat) (off L s e : Nat) (newBytes : List Nat)
    (hf : findStringPattern data off = some (L, s, e)) :
    (∀ i, i < off → (rewriteFrame data off s e newBytes)[i]? = data[i]?) ∧
    (∀ k, (rewriteFrame data off s e newBytes)[s + newBytes.length + k]? = data[e + k]?) ∧
    (rewriteFrame data off s e newBytes).length + (e - s) =
      data.length + newBytes.length := by
  obtain ⟨hlen5, -, -, -, hs, he, -⟩ := findStringPattern_some hf
  have hge : s ≤ e := by
    subst hs; subst he; exact findZero_ge data (off + 5)
  have hle : e ≤ data.length := by
    subst hs; subst he; exact findZero_le data (off + 5) (by omega)
  have hsl : s < data.length := by omega
  unfold rewriteFrame
  simp only []
  have hdlen : (data.set (off + 1) (newBytes.length + 1)).length = data.length :=
    List.length_set data _ _
  have htlen : ((data.set (off + 1) (newBytes.length + 1)).take s).length = s := by
    rw [List.length_take, hdlen]
    omega
  refine ⟨?_, ?_, ?_⟩
  · intro i hi
    rw [List.getElem?_append, List.length_append, htlen]
    rw [if_pos (by omega)]
    rw [List.getElem?_append, htlen, if_pos (by omega)]
    rw [List.getElem?_take, if_pos (by omega)]
    exact List.getElem?_set_ne (by omega)
  · intro k
    rw [List.getElem?_append, List.length_append, htlen]
    rw [if_neg (by omega)]
    have hidx2 : s + newBytes.length + k - (s + newBytes.length) = k := by omega
    rw [hidx2, List.getElem?_drop]
    exact List.getElem?_set_ne (by omega)
  · rw [List.length_append, List.length_append, htlen, List.length_drop, hdlen]
    omega

theorem c9_witness :
    (∀ i, i < 0 → (rewriteFrame [4, 2, 0, 0, 0, 65, 0, 9] 0 5 6 [75, 76])[i]? =
      ([4, 2, 0, 0, 0, 65, 0, 9] : List Nat)[i]?) ∧
    (∀ k, (rewriteFrame [4, 2, 0, 0, 0, 65, 0, 9] 0 5 6 [75, 76])[5 + 2 + k]? =
      ([4, 2, 0, 0, 0, 65, 0, 9] : List Nat)[6 + k]?) ∧
    (rewriteFrame [4, 2, 0, 0, 0, 65, 0, 9] 0 5 6 [75, 76]).length + (6 - 5) =
      ([4, 2, 0, 0, 0, 65, 0, 9] : List Nat).length + 2 :=
  c9_rewrite_preserves [4, 2, 0, 0, 0, 65, 0, 9] 0 2 5 6 [75, 76] (by decide)

/-! Section: Claim C2: replacement longer than the original payload -/

unseal replaceLoop in
/-- Claim C2, counterexample: translating the 3-byte payload ABC
(length byte 4) to a 10-byte replacement writes a length byte of 11
and emits the warning, but does NOT overwrite 11 bytes in place
starting at the payload offset: the Python bytearray slice assignment
splices the 10 new bytes over the 3 old payload bytes, growing the
16-byte buffer to 23 bytes; the terminator and the seven 9-bytes that
followed the frame survive (shifted), where the claimed in-place
overwrite would have destroyed them and kept the length at 16. -/
theorem c2_overflow_counterexample :
    replaceStrings asciiCodec [4, 4, 0, 0, 0, 65, 66, 67, 0, 9, 9, 9, 9, 9, 9, 9]
        [⟨[65, 66, 67], [48, 49, 50, 51, 52, 53, 54, 55, 56, 57]⟩] =
      Except.ok
        ([4, 11, 0, 0, 0, 48, 49, 50, 51, 52, 53, 54, 55, 56, 57, 0, 9, 9, 9, 9, 9, 9, 9],
         [RepWarning.lengthExceeds 11 4 0]) ∧
    ([4, 11, 0, 0, 0, 48, 49, 50, 51, 52, 53, 54, 55, 56, 57, 0,
      9, 9, 9, 9, 9, 9, 9] : List Nat).length ≠
      ([4, 4, 0, 0, 0, 65, 66, 67, 0, 9, 9, 9, 9, 9, 9, 9] : List Nat).length := by
  constructor <;> decide

unseal replaceLoop in
/-- Claim C2 (amended): in the same scenario the code writes a length
byte of encoded-length-plus-one (11), emits the non-fatal
length-exceeds warning, raises no exception, and splices the 10
encoded bytes over the 3 original payload bytes: the buffer grows by
7 and the bytes that followed the original payload (its terminator
and the tail) are shifted right, preserved rather than overwritten. -/
theorem c2_overflow_amended :
    replaceStrings asciiCodec ([4, 4, 0, 0, 0] ++ [65, 66, 67] ++ [0] ++ [9, 9, 9, 9, 9, 9, 9])
        [⟨[65, 66, 67], [48, 49, 50, 51, 52, 53, 54, 55, 56, 57]⟩] =
      Except.ok
        ([4, 11, 0, 0, 0] ++ [48, 49, 50, 51, 52, 53, 54, 55, 56, 57] ++ [0] ++
          [9, 9, 9, 9, 9, 9, 9],
         [RepWarning.lengthExceeds 11 4 0]) := by
  decide

/-! Section: Claim C5: positional gating of replacements -/

unseal extractEntries replaceLoop in
/-- Claim C5: with genuine frames A, B, C and a coincidental extra
frame identical to A lying between B and C (the extractor sees all
four, in offset order), replacing with translations for A, B, C
rewrites the first frame to A-prime, the second to B-prime, leaves
the duplicate A frame untouched (its text does not equal the third
slot's original C), and applies C-prime to the genuine C frame:
matching is gated by scan order plus equality with the currently
expected slot, not by global text search. -/
theorem c5_positional_gating :
    replaceStrings asciiCodec
        ([4, 2, 0, 0, 0, 65, 0] ++ [4, 2, 0, 0, 0, 66, 0] ++
         [4, 2, 0, 0, 0, 65, 0] ++ [4, 2, 0, 0, 0, 67, 0])
        [⟨[65], [97]⟩, ⟨[66], [98]⟩, ⟨[67], [99]⟩] =
      Except.ok
        ([4, 2, 0, 0, 0, 97, 0] ++ [4, 2, 0, 0, 0, 98, 0] ++
         [4, 2, 0, 0, 0, 65, 0] ++ [4, 2, 0, 0, 0, 99, 0], []) ∧
    extractStrings asciiCodec
        ([4, 2, 0, 0, 0, 65, 0] ++ [4, 2, 0, 0, 0, 66, 0] ++
         [4, 2, 0, 0, 0, 65, 0] ++ [4, 2, 0, 0, 0, 67, 0]) =
      [⟨[65], [65]⟩, ⟨[66], [66]⟩, ⟨[65], [65]⟩, ⟨[67], [67]⟩] := by
  constructor <;> decide

/-! Section: Claim C6: partial application is kept -/

/-- The replace loop can only fail through the length-byte range
check, so when every translation's encoded length fits in a byte it
always terminates with a buffer: no exception aborts the run. -/
theorem replaceLoop_no_error (c : Codec) (ts : List StrRec)
    (henc : ∀ i (h : i < ts.length), (c.encode (ts.get ⟨i, h⟩).trans).length + 1 < 256) :
    ∀ (N : Nat) (data : List Nat) (n off tIdx : Nat),
      data.length - off ≤ n → ts.length - tIdx ≤ N →
      ∃ d ws, replaceLoop c ts data off tIdx = Except.ok (d, ws) := by
  intro N
  induction N with
  | zero =>
    intro data n off tIdx hn hN
    rw [replaceLoop, dif_neg (fun hcon => by omega)]
    exact ⟨data, _, rfl⟩
  | succ N ihN =>
    intro data n
    induction n with
    | zero =>
      intro off tIdx hn hN
      rw [replaceLoop, dif_neg (fun hcon => by omega)]
      exact ⟨data, _, rfl⟩
    | succ n ihn =>
      intro off tIdx hn hN
      by_cases hoff : off < data.length
      case neg =>
        rw [replaceLoop, dif_neg (fun hcon => hoff hcon.1)]
        exact ⟨data, _, rfl⟩
      case pos =>
      by_cases hidx : tIdx < ts.length
      case neg =>
        rw [replaceLoop, dif_neg (fun hcon => hidx hcon.2)]
        exact ⟨data, _, rfl⟩
      case pos =>
      rw [replaceLoop, dif_pos ⟨hoff, hidx⟩]
      split
      case _ hfg => exact ihn (off + 1) tIdx (by omega) hN
      case _ L s e hfg =>
        split
        case _ hdg =>
          obtain ⟨d, ws, hws⟩ := ihn (off + 1) tIdx (by omega) hN
          exact ⟨d, _, by rw [hws]; rfl⟩
        case _ oldStr hdg =>
          by_cases hcond : (ts.get ⟨tIdx, hidx⟩).orig = oldStr
          · rw [if_pos hcond, if_pos (henc tIdx hidx)]
            obtain ⟨d, ws, hws⟩ :=
              ihN (rewriteFrame data off s e (c.encode (ts.get ⟨tIdx, hidx⟩).trans))
                (rewriteFrame data off s e (c.encode (ts.get ⟨tIdx, hidx⟩).trans)).length
                (s + ((c.encode (ts.get ⟨tIdx, hidx⟩).trans).length + 1)) (tIdx + 1)
                (by omega) (by omega)
            exact ⟨d, _, by rw [hws]; rfl⟩
          · rw [if_neg hcond]
            exact ihn (off + 1) tIdx (by omega) hN

unseal replaceLoop in
/-- Claim C6: an unmatched translation slot does not abort the run:
whenever every translation's encoded length fits in the one-byte
field, replace_strings terminates with a buffer and no exception
(first part); and concretely, when the third translation's original
text never occurs, the run ends with the first two translations
applied to the output and the non-fatal report that 1 translation
remains unconsumed — partial application is kept, not rolled back
(second part). -/
theorem c6_partial_application :
    (∀ (c : Codec) (ts : List StrRec) (data : List Nat),
      (∀ i (h : i < ts.length), (c.encode (ts.get ⟨i, h⟩).trans).length + 1 < 256) →
      ∃ d ws, replaceStrings c data ts = Except.ok (d, ws)) ∧
    replaceStrings asciiCodec ([4, 2, 0, 0, 0, 65, 0] ++ [4, 2, 0, 0, 0, 66, 0])
        [⟨[65], [97]⟩, ⟨[66], [98]⟩, ⟨[67], [99]⟩] =
      Except.ok ([4, 2, 0, 0, 0, 97, 0] ++ [4, 2, 0, 0, 0, 98, 0],
        [RepWarning.notAllApplied 1]) := by
  constructor
  · intro c ts data henc
    unfold replaceStrings
    exact replaceLoop_no_error c ts henc ts.length data data.length 0 0 (by omega) (by omega)
  · decide

theorem c6_witness :
    (∃ d ws, replaceStrings asciiCodec [4, 2, 0, 0, 0, 65, 0] [⟨[65], [97]⟩] =
      Except.ok (d, ws)) ∧
    replaceStrings asciiCodec ([4, 2, 0, 0, 0, 65, 0] ++ [4, 2, 0, 0, 0, 66, 0])
        [⟨[65], [97]⟩, ⟨[66], [98]⟩, ⟨[67], [99]⟩] =
      Except.ok ([4, 2, 0, 0, 0, 97, 0] ++ [4, 2, 0, 0, 0, 98, 0],
        [RepWarning.notAllApplied 1]) :=
  ⟨c6_partial_application.1 asciiCodec [⟨[65], [97]⟩] [4, 2, 0, 0, 0, 65, 0] (by decide),
   c6_partial_application.2⟩

/-! Section: Claim C10: termination -/

/-- Claim C10: both loops are total functions of the embedding (their
well-founded recursions are exactly the claimed measures), and the
claimed measure facts hold: each extraction iteration continues at a
strictly larger cursor (first part), and each replacement iteration
either raises the range error or continues at a strictly larger
cursor, such that any iteration that changes the buffer length also
consumes one translation slot (second part). -/
theorem c10_termination_measures :
    (∀ (c : Codec) (data : List Nat) (off : Nat), off < data.length →
      ∃ off2, off < off2 ∧
        (extractEntries c data off = extractEntries c data off2 ∨
         ∃ x, extractEntries c data off = x :: extractEntries c data off2)) ∧
    (∀ (c : Codec) (ts : List StrRec) (data : List Nat) (off tIdx : Nat),
      off < data.length → tIdx < ts.length →
      (∃ v, replaceLoop c ts data off tIdx = Except.error v) ∨
      ∃ data2 off2 tIdx2, off < off2 ∧
        (data2.length ≠ data.length → tIdx2 = tIdx + 1) ∧
        (replaceLoop c ts data off tIdx = replaceLoop c ts data2 off2 tIdx2 ∨
         ∃ w, replaceLoop c ts data off tIdx =
           Except.map (fun r => (r.1, w ++ r.2)) (replaceLoop c ts data2 off2 tIdx2))) := by
  constructor
  · intro c data off hoff
    rw [extractEntries, dif_pos hoff]
    split
    case _ _len s e hf =>
      obtain ⟨-, -, -, -, hs, he, -⟩ := findStringPattern_some hf
      have hge : s ≤ e := by
        subst hs; subst he; exact findZero_ge data (off + 5)
      split
      case _ str hdec => exact ⟨e + 1, by omega, Or.inr ⟨_, rfl⟩⟩
      case _ hdec => exact ⟨off + 1, by omega, Or.inl rfl⟩
    case _ hf => exact ⟨off + 1, by omega, Or.inl rfl⟩
  · intro c ts data off tIdx hoff hidx
    rw [replaceLoop, dif_pos ⟨hoff, hidx⟩]
    split
    case _ hfg =>
      exact Or.inr ⟨data, off + 1, tIdx, by omega, fun hcon => absurd rfl hcon, Or.inl rfl⟩
    case _ L s e hfg =>
      obtain ⟨-, -, -, -, hs, he, -⟩ := findStringPattern_some hfg
      split
      case _ hdg =>
        exact Or.inr ⟨data, off + 1, tIdx, by omega, fun hcon => absurd rfl hcon,
          Or.inr ⟨[RepWarning.decodeFail s], rfl⟩⟩
      case _ oldStr hdg =>
        by_cases hcond : (ts.get ⟨tIdx, hidx⟩).orig = oldStr
        · rw [if_pos hcond]
          by_cases h256 : (c.encode (ts.get ⟨tIdx, hidx⟩).trans).length + 1 < 256
          · rw [if_pos h256]
            refine Or.inr ⟨rewriteFrame data off s e (c.encode (ts.get ⟨tIdx, hidx⟩).trans),
              s + ((c.encode (ts.get ⟨tIdx, hidx⟩).trans).length + 1), tIdx + 1,
              by omega, fun _ => rfl, Or.inr ⟨_, rfl⟩⟩
          · rw [if_neg h256]
            exact Or.inl ⟨_, rfl⟩
        · rw [if_neg hcond]
          exact Or.inr ⟨data, off + 1, tIdx, by omega, fun hcon => absurd rfl hcon, Or.inl rfl⟩

theorem c10_witness :
    (∃ off2, 0 < off2 ∧
      (extractEntries asciiCodec [0, 0, 0, 0, 0, 0] 0 =
         extractEntries asciiCodec [0, 0, 0, 0, 0, 0] off2 ∨
       ∃ x, extractEntries asciiCodec [0, 0, 0, 0, 0, 0] 0 =
         x :: extractEntries asciiCodec [0, 0, 0, 0, 0, 0] off2)) ∧
    ((∃ v, replaceLoop asciiCodec [⟨[65], [97]⟩] [0, 0, 0, 0, 0, 0] 0 0 = Except.error v) ∨
      ∃ data2 off2 tIdx2, 0 < off2 ∧
        (data2.length ≠ ([0, 0, 0, 0, 0, 0] : List Nat).length → tIdx2 = 0 + 1) ∧
        (replaceLoop asciiCodec [⟨[65], [97]⟩] [0, 0, 0, 0, 0, 0] 0 0 =
           replaceLoop asciiCodec [⟨[65], [97]⟩] data2 off2 tIdx2 ∨
         ∃ w, replaceLoop asciiCodec [⟨[65], [97]⟩] [0, 0, 0, 0, 0, 0] 0 0 =
           Except.map (fun r => (r.1, w ++ r.2))
             (replaceLoop asciiCodec [⟨[65], [97]⟩] data2 off2 tIdx2))) :=
  ⟨c10_termination_measures.1 asciiCodec [0, 0, 0, 0, 0, 0] 0 (by decide),
   c10_termination_measures.2 asciiCodec [⟨[65], [97]⟩] [0, 0, 0, 0, 0, 0] 0 0
     (by decide) (by decide)⟩

end ScbTool
